import Mathlib

/-!
# A Lean model of the serde-lite intermediate value model and its protocols

This file is a shallow embedding of the serde-lite Rust library:

* the `Intermediate` value model and its `Number` sub-variants
  (`src/serde-lite/src/intermediate.rs`),
* the `Error` taxonomy (`src/serde-lite/src/lib.rs`),
* the `Deserialize` implementations for primitives, options, sequences,
  tuples and string-keyed maps (`src/serde-lite/src/deserialize.rs`),
* the `Update` implementations (`src/serde-lite/src/update.rs`),
* and the code shapes produced by the derive macros for a representative
  one-field tuple struct, a named-field struct and an internally tagged
  enum (`src/serde-lite-derive/src/{deserialize,update}.rs`).

Rust's `&mut self` updates are modelled by state passing: an update takes the
receiver and returns the new receiver state together with an optional error
(`none` = the Rust call returned `Ok(())`).  Rust's `HashMap`s are modelled
as association lists; equality of Rust `HashMap`s is order independent, so
the list is a canonical representative and all stated properties are about
key lookups.  IEEE `f64` payloads are modelled by the opaque wrapper `F64`;
none of the modelled operations ever inspects a float payload (floats only
ever cause `UnsupportedConversion` in the verified paths).
-/

/-- Opaque model of an `f64` payload.  No modelled operation inspects it. -/
structure F64 where
  val : Rat
deriving DecidableEq, Repr

/-- `Number` from `intermediate.rs`: float / signed-64 / unsigned-64. -/
inductive Number where
  | float (v : F64)
  | signedInt (v : Int)
  | unsignedInt (v : Nat)
deriving DecidableEq, Repr

/-- `Error` from `lib.rs`.  `NamedFieldError` / `UnnamedFieldError` lists are
modelled as lists of pairs (field name / index, child error). -/
inductive Error where
  | OutOfBounds
  | UnsupportedConversion
  | MissingField
  | UnknownEnumVariant
  | MissingEnumVariantContent
  | InvalidValue (expected : String)
  | NamedFieldErrors (errors : List (String × Error))
  | UnnamedFieldErrors (errors : List (Nat × Error))
  | Custom (msg : String)

/-- `Intermediate` from `intermediate.rs`.  The `Map` payload is the
string-keyed map, modelled as an association list. -/
inductive Intermediate where
  | none
  | bool (b : Bool)
  | number (n : Number)
  | string (s : String)
  | array (elems : List Intermediate)
  | map (entries : List (String × Intermediate))

/-- `Intermediate::is_none`. -/
def is_none : Intermediate → Bool
  | .none => true
  | _ => false

/-- `Intermediate::as_bool`. -/
def as_bool : Intermediate → Option Bool
  | .bool b => some b
  | _ => Option.none

/-- `Intermediate::as_number`. -/
def as_number : Intermediate → Option Number
  | .number n => some n
  | _ => Option.none

/-- `Intermediate::as_str`. -/
def as_str : Intermediate → Option String
  | .string s => some s
  | _ => Option.none

/-- `Intermediate::as_char`: take the first two chars of the string view;
the result is the first char only when there is no second one. -/
def as_char (v : Intermediate) : Option Char :=
  match as_str v with
  | some s =>
    match s.data with
    | [] => Option.none
    | [c] => some c
    | _ => Option.none
  | Option.none => Option.none

/-- `Intermediate::as_array`. -/
def as_array : Intermediate → Option (List Intermediate)
  | .array v => some v
  | _ => Option.none

/-- `Intermediate::as_map`. -/
def as_map : Intermediate → Option (List (String × Intermediate))
  | .map v => some v
  | _ => Option.none

/-- `Map::get` (first matching key of the association list). -/
def alGet {β : Type} : List (String × β) → String → Option β
  | [], _ => Option.none
  | (k, v) :: rest, key => if k = key then some v else alGet rest key

/-- Replace the value stored at an existing key (models mutating through
`get_mut`); leaves the list unchanged if the key is absent. -/
def alSet {β : Type} : List (String × β) → String → β → List (String × β)
  | [], _, _ => []
  | (k, v) :: rest, key, b => if k = key then (k, b) :: rest else (k, v) :: alSet rest key b

/-- Integer widths for which `intermediate.rs` instantiates
`try_int_from_number!` (plus the special `i64`/`u64` impls). -/
inductive IW where
  | w8
  | w16
  | w32
  | w64
deriving DecidableEq, Repr

/-- Minimum of the signed type of width `w`. -/
def IW.smin : IW → Int
  | .w8 => -128
  | .w16 => -32768
  | .w32 => -2147483648
  | .w64 => -9223372036854775808

/-- Maximum of the signed type of width `w`. -/
def IW.smax : IW → Int
  | .w8 => 127
  | .w16 => 32767
  | .w32 => 2147483647
  | .w64 => 9223372036854775807

/-- Maximum of the unsigned type of width `w`. -/
def IW.umax : IW → Nat
  | .w8 => 255
  | .w16 => 65535
  | .w32 => 4294967295
  | .w64 => 18446744073709551615

/-- `TryFrom<Number>` for the signed integer types (`intermediate.rs`):
the macro cases check the target range via `try_into`; the dedicated `i64`
impl accepts any `SignedInt` unchecked and range-checks `UnsignedInt`. -/
def tryFromNumberSigned : IW → Number → Except Error Int
  | _, .float _ => .error .UnsupportedConversion
  | .w64, .signedInt v => .ok v
  | .w64, .unsignedInt n => if (n : Int) ≤ IW.smax .w64 then .ok n else .error .OutOfBounds
  | w, .signedInt v => if IW.smin w ≤ v ∧ v ≤ IW.smax w then .ok v else .error .OutOfBounds
  | w, .unsignedInt n => if (n : Int) ≤ IW.smax w then .ok n else .error .OutOfBounds

/-- `TryFrom<Number>` for the unsigned integer types (`intermediate.rs`):
the macro cases range-check both sources; the dedicated `u64` impl accepts
any `UnsignedInt` unchecked and sign-checks `SignedInt`. -/
def tryFromNumberUnsigned : IW → Number → Except Error Nat
  | _, .float _ => .error .UnsupportedConversion
  | .w64, .unsignedInt n => .ok n
  | .w64, .signedInt v => if 0 ≤ v then .ok v.toNat else .error .OutOfBounds
  | w, .unsignedInt n => if n ≤ IW.umax w then .ok n else .error .OutOfBounds
  | w, .signedInt v => if 0 ≤ v ∧ v ≤ (IW.umax w : Int) then .ok v.toNat else .error .OutOfBounds

/-- `impl Deserialize for bool` (`deserialize.rs`). -/
def deserialize_bool (val : Intermediate) : Except Error Bool :=
  match as_bool val with
  | some b => .ok b
  | Option.none => .error (.InvalidValue "bool")

/-- `deserialize_for_signed_int!` (`deserialize.rs`): `as_number`, then the
`TryFrom<Number>` conversion. -/
def deserialize_signed (w : IW) (val : Intermediate) : Except Error Int :=
  match as_number val with
  | some n => tryFromNumberSigned w n
  | Option.none => .error (.InvalidValue "integer")

/-- `deserialize_for_unsigned_int!` (`deserialize.rs`). -/
def deserialize_unsigned (w : IW) (val : Intermediate) : Except Error Nat :=
  match as_number val with
  | some n => tryFromNumberUnsigned w n
  | Option.none => .error (.InvalidValue "unsigned integer")

/-- `impl Deserialize for char` (`deserialize.rs`). -/
def deserialize_char (val : Intermediate) : Except Error Char :=
  match as_char val with
  | some c => .ok c
  | Option.none => .error (.InvalidValue "character")

/-- `impl Deserialize for String` (`deserialize.rs`). -/
def deserialize_string (val : Intermediate) : Except Error String :=
  match as_str val with
  | some s => .ok s
  | Option.none => .error (.InvalidValue "string")

/-- `impl Update for String` (`update.rs`): full replacement on a string
input, error (receiver untouched) otherwise. -/
def update_string (self : String) (val : Intermediate) : String × Option Error :=
  match as_str val with
  | some v => (v, Option.none)
  | Option.none => (self, some (.InvalidValue "string"))

/-- `impl Update for bool` (`update.rs`). -/
def update_bool (self : Bool) (val : Intermediate) : Bool × Option Error :=
  match as_bool val with
  | some v => (v, Option.none)
  | Option.none => (self, some (.InvalidValue "bool"))

/-- `impl<T> Update for Option<T>` (`update.rs`): explicit absence clears to
`None`; otherwise an existing inner value is updated in place, and a missing
one is deserialized fresh and wrapped. -/
def update_option {α : Type} (upd : α → Intermediate → α × Option Error)
    (des : Intermediate → Except Error α) (self : Option α) (val : Intermediate) :
    Option α × Option Error :=
  if is_none val then (Option.none, Option.none)
  else
    match self with
    | some inner =>
      let r := upd inner val
      (some r.1, r.2)
    | Option.none =>
      match des val with
      | .ok a => (some a, Option.none)
      | .error e => (Option.none, some e)

/-- Loop body of `impl<T> Update for Vec<T>` (`update.rs`): for each incoming
element at `index`, update the existing slot in place when `index` is still
within the receiver, otherwise deserialize fresh and push; the first failing
element aborts, leaving the receiver in its partially updated state. -/
def update_vec_loop {α : Type} (upd : α → Intermediate → α × Option Error)
    (des : Intermediate → Except Error α) (index : Nat) (self : List α) :
    List Intermediate → List α × Option Error
  | [] => (self, Option.none)
  | elem :: rest =>
    if h : index < self.length then
      let r := upd (self.get ⟨index, h⟩) elem
      let self' := self.set index r.1
      match r.2 with
      | Option.none => update_vec_loop upd des (index + 1) self' rest
      | some err => (self', some err)
    else
      match des elem with
      | .ok a => update_vec_loop upd des (index + 1) (self ++ [a]) rest
      | .error err => (self, some err)

/-- `impl<T> Update for Vec<T>` (`update.rs`): requires an `Array` input,
truncates the receiver first when the input is shorter, then runs the
positional merge loop. -/
def update_vec {α : Type} (upd : α → Intermediate → α × Option Error)
    (des : Intermediate → Except Error α) (self : List α) (val : Intermediate) :
    List α × Option Error :=
  match as_array val with
  | some arr =>
    let self' := if arr.length < self.length then self.take arr.length else self
    update_vec_loop upd des 0 self' arr
  | Option.none => (self, some (.InvalidValue "array"))

/-- Entry loop of `impl<K, V> Update for HashMap<K, V>` (`update.rs`) at
`K = String` (whose `FromStr` is infallible): existing keys are updated in
place, new keys are inserted via deserialize; the first failing entry aborts,
leaving the receiver in its partially updated state. -/
def update_map_entries {β : Type} (upd : β → Intermediate → β × Option Error)
    (des : Intermediate → Except Error β) (self : List (String × β)) :
    List (String × Intermediate) → List (String × β) × Option Error
  | [] => (self, Option.none)
  | (name, value) :: rest =>
    match alGet self name with
    | some inner =>
      let r := upd inner value
      let self' := alSet self name r.1
      match r.2 with
      | Option.none => update_map_entries upd des self' rest
      | some err => (self', some err)
    | Option.none =>
      match des value with
      | .ok b => update_map_entries upd des (self ++ [(name, b)]) rest
      | .error err => (self, some err)

/-- `impl<K, V> Update for HashMap<K, V>` (`update.rs`) at `K = String`:
requires a `Map` input, then merges entry by entry. -/
def update_hashmap {β : Type} (upd : β → Intermediate → β × Option Error)
    (des : Intermediate → Except Error β) (self : List (String × β))
    (val : Intermediate) : List (String × β) × Option Error :=
  match as_map val with
  | some entries => update_map_entries upd des self entries
  | Option.none => (self, some (.InvalidValue "map"))

/-- Entry loop of `impl<K, V, S> Deserialize for HashMap<K, V, S>`
(`deserialize.rs`) at `K = String` (whose `TryFrom<Cow>` is infallible):
each value is deserialized in turn and the first failure aborts the whole
map with that child error. -/
def deserialize_map_entries {β : Type} (des : Intermediate → Except Error β) :
    List (String × Intermediate) → Except Error (List (String × β))
  | [] => .ok []
  | (name, value) :: rest => do
    let v ← des value
    let res ← deserialize_map_entries des rest
    pure ((name, v) :: res)

/-- `impl<K, V, S> Deserialize for HashMap<K, V, S>` (`deserialize.rs`) at
`K = String`. -/
def deserialize_hashmap {β : Type} (des : Intermediate → Except Error β)
    (val : Intermediate) : Except Error (List (String × β)) :=
  match as_map val with
  | some entries => deserialize_map_entries des entries
  | Option.none => .error (.InvalidValue "map")

/-- The first components of updating a list slice position by position:
`updZip upd s arr` is the element-wise updated common prefix of receiver `s`
and incoming elements `arr`.  Used to state the `Vec` update properties. -/
def updZip {α : Type} (upd : α → Intermediate → α × Option Error)
    (s : List α) (arr : List Intermediate) : List α :=
  List.zipWith (fun a e => (upd a e).1) s arr

/-! ## Derive-generated code shapes

The serde-lite derive macros (`src/serde-lite-derive`) generate one concrete
algorithm per user type.  The following definitions are the expansions of
those generators for three representative types, traced directly from the
`quote!` templates in `deserialize.rs` / `update.rs` of the derive crate. -/

/-- A one-field tuple struct `struct SingleFieldStruct(String);`. -/
structure SingleFieldStruct where
  f0 : String
deriving DecidableEq, Repr

/-- Expansion of `deserialize_unnamed_fields` at arity 1: the generated code
is `let __arr = std::slice::from_ref(__val);` — the input value itself (with
no array unwrapping and no length check) is the single field's value, and a
sole field error is surfaced directly (not wrapped in an aggregate). -/
def SingleFieldStruct.deserialize (val : Intermediate) : Except Error SingleFieldStruct :=
  match deserialize_string val with
  | .ok s => .ok ⟨s⟩
  | .error e => .error e

/-- Expansion of `update_unnamed_fields` at arity 1: the generated code is
`let __arr = __val.as_array().unwrap_or_else(|| std::slice::from_ref(__val));`
followed by a length check, the field update from `__arr[0]`, and error
reporting that wraps in `UnnamedFieldErrors` only when the input was an
array. -/
def SingleFieldStruct.update (self : SingleFieldStruct) (val : Intermediate) :
    SingleFieldStruct × Option Error :=
  let arr := match as_array val with
    | some a => a
    | Option.none => [val]
  match arr with
  | [] => (self, some (.InvalidValue "array of length 1"))
  | x :: _ =>
    let r := update_string self.f0 x
    match r.2 with
    | Option.none => (⟨r.1⟩, Option.none)
    | some e =>
      match as_array val with
      | some _ => (⟨r.1⟩, some (.UnnamedFieldErrors [(0, e)]))
      | Option.none => (⟨r.1⟩, some e)

/-- A named-field struct `struct MyStruct { field1: u32, field2: String }`
(the struct of the spec's aggregated-field-errors example). -/
structure MyStruct where
  field1 : Nat
  field2 : String
deriving DecidableEq, Repr

/-- Expansion of `deserialize_named_fields` for `MyStruct`: require a map,
look up every field, push each failure (missing key ↦ `MissingField`, failed
child deserialize ↦ its error) into the field-error list in declaration
order, and fail with the aggregate `NamedFieldErrors` if any field failed. -/
def MyStruct.deserialize (val : Intermediate) : Except Error MyStruct :=
  match as_map val with
  | Option.none => .error (.InvalidValue "object")
  | some obj =>
    let r1 : Except Error Nat :=
      match alGet obj "field1" with
      | some v => deserialize_unsigned .w32 v
      | Option.none => .error .MissingField
    let r2 : Except Error String :=
      match alGet obj "field2" with
      | some v => deserialize_string v
      | Option.none => .error .MissingField
    match r1, r2 with
    | .ok f1, .ok f2 => .ok ⟨f1, f2⟩
    | _, _ =>
      .error (.NamedFieldErrors
        ((match r1 with | .error e => [("field1", e)] | _ => []) ++
         (match r2 with | .error e => [("field2", e)] | _ => [])))

/-- An internally tagged enum (container attribute `tag = "type"`):
`enum TaggedEnum { Variant1, Variant2 { field2: String } }`. -/
inductive TaggedEnum where
  | Variant1
  | Variant2 (field2 : String)
deriving DecidableEq, Repr

/-- The generated current-variant name lookup (`get_current_enum_variant`). -/
def TaggedEnum.currentVariant : TaggedEnum → String
  | .Variant1 => "Variant1"
  | .Variant2 _ => "Variant2"

/-- Expansion of the derive `Deserialize` for `TaggedEnum`
(`expand_internally_tagged_enum` with no content field): require a map, read
the tag key `"type"` (absence is a `MissingField` named-field error on the
tag, a non-string tag an invalid-value named-field error on the tag), then
dispatch: the content of a struct variant is the whole input map. -/
def TaggedEnum.deserialize (val : Intermediate) : Except Error TaggedEnum :=
  match as_map val with
  | Option.none => .error (.InvalidValue "object")
  | some obj =>
    match alGet obj "type" with
    | Option.none => .error (.NamedFieldErrors [("type", .MissingField)])
    | some v =>
      match as_str v with
      | Option.none => .error (.NamedFieldErrors [("type", .InvalidValue "enum variant name")])
      | some variant =>
        if variant = "Variant1" then .ok .Variant1
        else if variant = "Variant2" then
          match (match alGet obj "field2" with
                 | some v2 => deserialize_string v2
                 | Option.none => .error .MissingField) with
          | .ok s => .ok (.Variant2 s)
          | .error e => .error (.NamedFieldErrors [("field2", e)])
        else .error .UnknownEnumVariant

/-- Expansion of the derive `Update` for `TaggedEnum`
(`expand_internally_tagged_enum` in `update.rs`): as `deserialize`, except
that a missing tag key falls back to the receiver's current variant name
(`unwrap_or_else(|| Some(__current_variant))`); when the selected variant
matches the receiver its fields are merged in place (absent field keys are
left untouched), otherwise the receiver is replaced by a full
`Self::deserialize` of the input. -/
def TaggedEnum.update (self : TaggedEnum) (val : Intermediate) :
    TaggedEnum × Option Error :=
  match as_map val with
  | Option.none => (self, some (.InvalidValue "object"))
  | some obj =>
    let variantRes : Except Error String :=
      match alGet obj "type" with
      | some v =>
        match as_str v with
        | some s => .ok s
        | Option.none => .error (.NamedFieldErrors [("type", .InvalidValue "enum variant name")])
      | Option.none => .ok (TaggedEnum.currentVariant self)
    match variantRes with
    | .error e => (self, some e)
    | .ok variant =>
      if variant = "Variant1" then (.Variant1, Option.none)
      else if variant = "Variant2" then
        match self with
        | .Variant2 field2 =>
          match alGet obj "field2" with
          | some v =>
            let r := update_string field2 v
            match r.2 with
            | Option.none => (.Variant2 r.1, Option.none)
            | some e => (.Variant2 r.1, some (.NamedFieldErrors [("field2", e)]))
          | Option.none => (.Variant2 field2, Option.none)
        | _ =>
          match TaggedEnum.deserialize val with
          | .ok s => (s, Option.none)
          | .error e => (self, some e)
      else (self, some .UnknownEnumVariant)

/-! ## A universe of serializable static types (round-trip claim)

`Ty` enumerates a representative family of Rust types implementing both
`Serialize` and `Deserialize`: primitives, `Option`, `Vec`, fixed arrays,
pairs (the per-arity tuple algorithm at arity 2), string-keyed maps and
transparent ownership wrappers.  `Val` is the corresponding value universe
(one signed-integer value form covers every signed width, since all signed
widths serialize to `SignedInt`, etc.); `hasTy` is the typing predicate. -/

/-- Type codes for the serializable families. -/
inductive Ty where
  | bool
  | sint (w : IW)
  | uint (w : IW)
  | char
  | str
  | opt (t : Ty)
  | vec (t : Ty)
  | arr (n : Nat) (t : Ty)
  | prod (t1 t2 : Ty)
  | map (t : Ty)
  | box (t : Ty)
deriving DecidableEq, Repr

/-- Values of the universe. -/
inductive Val where
  | vBool (b : Bool)
  | vInt (i : Int)
  | vNat (n : Nat)
  | vChar (c : Char)
  | vStr (s : String)
  | vNone
  | vSome (v : Val)
  | vVec (vs : List Val)
  | vPair (a b : Val)
  | vMap (es : List (String × Val))

mutual

/-- The `Serialize` protocol on the universe (`serialize.rs`): for these
families every branch of the source returns `Ok(..)` (all widths ≤ 64 widen
infallibly), so the model returns the `Intermediate` directly.  Signed
integers widen to `SignedInt`, unsigned to `UnsignedInt`; `char` serializes
to its one-character string; `None` to explicit absence, `Some` transparently;
sequences/arrays/tuples to `Array`; maps entry-wise to `Map`; ownership
wrappers are transparent passthrough. -/
def ser : Val → Intermediate
  | .vBool b => .bool b
  | .vInt i => .number (.signedInt i)
  | .vNat n => .number (.unsignedInt n)
  | .vChar c => .string (String.mk [c])
  | .vStr s => .string s
  | .vNone => .none
  | .vSome v => ser v
  | .vVec vs => .array (serList vs)
  | .vPair a b => .array [ser a, ser b]
  | .vMap es => .map (serEntries es)

/-- Element-wise serialization of a sequence (`serialize_slice`). -/
def serList : List Val → List Intermediate
  | [] => []
  | v :: vs => ser v :: serList vs

/-- Entry-wise serialization of a string-keyed map. -/
def serEntries : List (String × Val) → List (String × Intermediate)
  | [] => []
  | (k, v) :: es => (k, ser v) :: serEntries es

end

mutual

/-- Typing of universe values: integer values must be in the range of their
width; array values must have the declared length; map keys are unique
(association lists model `HashMap`s); wrappers are transparent. -/
def hasTy (v : Val) (t : Ty) : Bool :=
  match v, t with
  | .vBool _, .bool => true
  | .vInt i, .sint w => decide (IW.smin w ≤ i ∧ i ≤ IW.smax w)
  | .vNat n, .uint w => decide (n ≤ IW.umax w)
  | .vChar _, .char => true
  | .vStr _, .str => true
  | .vNone, .opt _ => true
  | .vSome v, .opt t => hasTy v t
  | .vVec vs, .vec t => hasTyList vs t
  | .vVec vs, .arr n t => decide (vs.length = n) && hasTyList vs t
  | .vPair a b, .prod t1 t2 => hasTy a t1 && hasTy b t2
  | .vMap es, .map t => decide ((es.map Prod.fst).Nodup) && hasTyEntries es t
  | v, .box t => hasTy v t
  | _, _ => false
termination_by (sizeOf v, sizeOf t)

/-- Typing of a list of values against one element type. -/
def hasTyList (vs : List Val) (t : Ty) : Bool :=
  match vs with
  | [] => true
  | v :: vs => hasTy v t && hasTyList vs t
termination_by (sizeOf vs, sizeOf t)

/-- Typing of map entries against one value type. -/
def hasTyEntries (es : List (String × Val)) (t : Ty) : Bool :=
  match es with
  | [] => true
  | (_, v) :: es => hasTy v t && hasTyEntries es t
termination_by (sizeOf es, sizeOf t)

end

mutual

/-- No optional value collapses under serialization: every `vSome` sub-value
has an inner value that does not serialize to explicit absence.  (Serialize
maps both `None` and `Some(None)` to `Intermediate::None`, so round-tripping
needs this side condition.) -/
def goodOpt : Val → Bool
  | .vSome v => !(is_none (ser v)) && goodOpt v
  | .vVec vs => goodOptList vs
  | .vPair a b => goodOpt a && goodOpt b
  | .vMap es => goodOptEntries es
  | _ => true

/-- `goodOpt` on every element of a list. -/
def goodOptList : List Val → Bool
  | [] => true
  | v :: vs => goodOpt v && goodOptList vs

/-- `goodOpt` on every map entry value. -/
def goodOptEntries : List (String × Val) → Bool
  | [] => true
  | (_, v) :: es => goodOpt v && goodOptEntries es

end

mutual

/-- The `Deserialize` protocol on the universe (`deserialize.rs`):
primitives require an exact variant match and checked numeric conversion;
options map absence to `None` and delegate otherwise; `Vec` requires an
`Array`; fixed arrays of length `n ≥ 1` require an `Array` of length at
least `n` and read the first `n` elements (`[T; 0]` accepts anything);
pairs follow the arity-2 tuple macro; maps require a `Map` and deserialize
value-wise; wrappers deserialize the inner type. -/
def deser : Ty → Intermediate → Except Error Val
  | .bool, v => (deserialize_bool v).map .vBool
  | .sint w, v => (deserialize_signed w v).map .vInt
  | .uint w, v => (deserialize_unsigned w v).map .vNat
  | .char, v => (deserialize_char v).map .vChar
  | .str, v => (deserialize_string v).map .vStr
  | .opt t, v => if is_none v then .ok .vNone else (deser t v).map .vSome
  | .vec t, v =>
    match as_array v with
    | some xs => (deserList t xs).map .vVec
    | Option.none => .error (.InvalidValue "array")
  | .arr 0 _, _ => .ok (.vVec [])
  | .arr (n + 1) t, v =>
    match as_array v with
    | some xs =>
      if xs.length < n + 1 then
        .error (.InvalidValue ("an array of length " ++ toString (n + 1)))
      else (deserList t (xs.take (n + 1))).map .vVec
    | Option.none => .error (.InvalidValue ("an array of length " ++ toString (n + 1)))
  | .prod t1 t2, v =>
    match as_array v with
    | some (x0 :: x1 :: _) => do
      let a ← deser t1 x0
      let b ← deser t2 x1
      pure (.vPair a b)
    | some _ => .error (.InvalidValue "an array of length 2")
    | Option.none => .error (.InvalidValue "an array of length 2")
  | .map t, v =>
    match as_map v with
    | some es => (deserEntries t es).map .vMap
    | Option.none => .error (.InvalidValue "map")
  | .box t, v => deser t v
termination_by t v => (sizeOf t, sizeOf v)

/-- Element-wise deserialization of an `Array` (first failure aborts). -/
def deserList (t : Ty) : List Intermediate → Except Error (List Val)
  | [] => .ok []
  | x :: xs => do
    let v ← deser t x
    let vs ← deserList t xs
    pure (v :: vs)
termination_by xs => (sizeOf t, sizeOf xs)

/-- Entry-wise deserialization of a `Map` (first failure aborts; the
`String` key conversion is infallible). -/
def deserEntries (t : Ty) : List (String × Intermediate) →
    Except Error (List (String × Val))
  | [] => .ok []
  | (k, x) :: es => do
    let v ← deser t x
    let vs ← deserEntries t es
    pure ((k, v) :: vs)
termination_by es => (sizeOf t, sizeOf es)

end

/-! ## Theorems -/

/-- **C4.** For the internally tagged enum, an update input that carries no
tag key falls back to the receiver's current variant and merges the supplied
fields, while `deserialize` of the very same input fails with a named-field
`MissingField` error on the tag field. -/
theorem c4_internal_tag_update_fallback :
    TaggedEnum.update (.Variant2 "hello") (.map [("field2", .string "world")])
      = (.Variant2 "world", Option.none)
    ∧ TaggedEnum.deserialize (.map [("field2", .string "world")])
      = .error (.NamedFieldErrors [("type", .MissingField)]) :=
  ⟨rfl, rfl⟩

/-- **C5 (counterexample).** Deserializing a two-entry string-keyed map whose
entries are both invalid for the value type does *not* produce an aggregated
error containing both failures: the built-in map deserialization fails fast
and surfaces the first child error bare. -/
theorem c5_counterexample :
    deserialize_hashmap deserialize_bool
        (.map [("a", .number (.signedInt 1)), ("b", .number (.signedInt 2))])
      = .error (.InvalidValue "bool")
    ∧ ∀ l, Error.InvalidValue "bool" ≠ Error.NamedFieldErrors l := by
  refine ⟨rfl, fun l h => ?_⟩
  cases h

/-- **C5 (amended).** Derive-generated struct named-field deserialization
does collect all child failures into one aggregated error (the spec's
example input yields both the `field1` invalid-value entry and the `field2`
missing-field entry), but the built-in string-keyed map deserialization
fails fast, returning the first failing entry's error unaggregated. -/
theorem c5_error_aggregation :
    MyStruct.deserialize (.map [("field1", .string "not-a-number")])
      = .error (.NamedFieldErrors
          [("field1", .InvalidValue "unsigned integer"), ("field2", .MissingField)])
    ∧ deserialize_hashmap deserialize_bool
        (.map [("a", .number (.signedInt 1)), ("b", .number (.signedInt 2))])
      = .error (.InvalidValue "bool") :=
  ⟨rfl, rfl⟩

/-- **C8 (counterexample).** For a one-field tuple struct, deserializing a
single-element array wrapper is *not* the same as deserializing the element
directly: the generated deserializer feeds the array itself to the field. -/
theorem c8_counterexample :
    SingleFieldStruct.deserialize (.array [.string "hi"]) = .error (.InvalidValue "string")
    ∧ SingleFieldStruct.deserialize (.string "hi") = .ok ⟨"hi"⟩ :=
  ⟨rfl, rfl⟩

/-- **C8 (amended).** For a one-field tuple struct, `deserialize` treats the
input value itself (with no array unwrapping) as the field's value; the
single-element array wrapper is tolerated by `update` instead, which applies
the wrapped element to the field exactly as the bare element, with the same
success condition. -/
theorem c8_single_field_shapes :
    (∀ val : Intermediate,
      SingleFieldStruct.deserialize val = (deserialize_string val).map (fun s => ⟨s⟩))
    ∧ ∀ (s : SingleFieldStruct) (x : Intermediate), as_array x = Option.none →
        (SingleFieldStruct.update s (.array [x])).1 = (SingleFieldStruct.update s x).1
        ∧ ((SingleFieldStruct.update s (.array [x])).2 = Option.none
            ↔ (SingleFieldStruct.update s x).2 = Option.none) := by
  constructor
  · intro val
    unfold SingleFieldStruct.deserialize
    cases deserialize_string val <;> rfl
  · intro s x hx
    cases x <;> simp_all [SingleFieldStruct.update, as_array, update_string, as_str]

/-- **C8 witness.** -/
theorem c8_single_field_shapes_witness :
    as_array (.string "b") = Option.none
    ∧ (SingleFieldStruct.update ⟨"a"⟩ (.array [.string "b"])).1
        = (SingleFieldStruct.update ⟨"a"⟩ (.string "b")).1 :=
  ⟨rfl, (c8_single_field_shapes.2 ⟨"a"⟩ (.string "b") rfl).1⟩

/-- **C9.** `as_char` returns `some c` exactly when the value is a string
whose content is the single character `c`; the empty string, longer strings
and non-string variants give `none`, and consequently deserializing a `char`
from the empty string fails with an invalid-value error. -/
theorem c9_as_char_spec :
    (∀ (v : Intermediate) (c : Char), as_char v = some c ↔ v = .string (String.mk [c]))
    ∧ as_char (.string "") = Option.none
    ∧ (∀ s : String, 2 ≤ s.length → as_char (.string s) = Option.none)
    ∧ (∀ v : Intermediate, (∀ s, v ≠ .string s) → as_char v = Option.none)
    ∧ deserialize_char (.string "") = .error (.InvalidValue "character") := by
  refine ⟨?_, rfl, ?_, ?_, rfl⟩
  · intro v c
    constructor
    · intro h
      cases v <;> simp [as_char, as_str] at h
      case string s =>
        cases s with
        | mk data =>
          match data, h with
          | [c'], h => simp_all
    · rintro rfl
      rfl
  · intro s hs
    cases s with
    | mk data =>
      match data, hs with
      | c0 :: c1 :: rest, _ => rfl
  · intro v hv
    cases v <;> first
      | rfl
      | exact absurd rfl (hv _)

/-- **C9 witness.** -/
theorem c9_as_char_spec_witness :
    (2 ≤ ("ab" : String).length ∧ as_char (.string "ab") = Option.none)
    ∧ ((∀ s, Intermediate.bool true ≠ .string s) ∧ as_char (.bool true) = Option.none)
    ∧ (as_char (.string "x") = some 'x' ↔ Intermediate.string "x" = .string (String.mk ['x'])) :=
  ⟨⟨by decide, c9_as_char_spec.2.2.1 "ab" (by decide)⟩,
   ⟨fun s h => Intermediate.noConfusion h,
    c9_as_char_spec.2.2.2.1 (.bool true) (fun s h => Intermediate.noConfusion h)⟩,
   c9_as_char_spec.1 (.string "x") 'x'⟩

/-- **C7.** `Option` update semantics: explicit absence clears the receiver
to `None`; a non-absent input applied to `Some inner` updates `inner` in
place via the element update; a non-absent input applied to `None`
deserializes a fresh value and stores `Some` of it (and stays `None` when
that deserialization fails). -/
theorem c7_option_update {α : Type} (upd : α → Intermediate → α × Option Error)
    (des : Intermediate → Except Error α) (self : Option α) (val : Intermediate) :
    (is_none val = true → update_option upd des self val = (Option.none, Option.none))
    ∧ (is_none val = false → ∀ inner, self = some inner →
        update_option upd des self val = (some (upd inner val).1, (upd inner val).2))
    ∧ (is_none val = false → self = Option.none →
        update_option upd des self val
          = (match des val with
             | .ok a => (some a, Option.none)
             | .error e => (Option.none, some e))) := by
  refine ⟨fun h => ?_, fun h inner hself => ?_, fun h hself => ?_⟩ <;>
    subst_eqs <;> simp_all [update_option]

/-- **C7 witness.** -/
theorem c7_option_update_witness :
    (is_none Intermediate.none = true
      ∧ update_option update_string deserialize_string (some "a") .none
          = (Option.none, Option.none))
    ∧ (is_none (.string "x") = false
      ∧ (some "a" : Option String) = some "a"
      ∧ update_option update_string deserialize_string (some "a") (.string "x")
          = (some (update_string "a" (.string "x")).1, (update_string "a" (.string "x")).2))
    ∧ (is_none (.string "x") = false
      ∧ update_option update_string deserialize_string Option.none (.string "x")
          = (match deserialize_string (.string "x") with
             | .ok a => (some a, Option.none)
             | .error e => (Option.none, some e))) :=
  ⟨⟨rfl, (c7_option_update update_string deserialize_string (some "a") .none).1 rfl⟩,
   ⟨rfl, rfl,
    (c7_option_update update_string deserialize_string (some "a") (.string "x")).2.1 rfl "a" rfl⟩,
   ⟨rfl,
    (c7_option_update update_string deserialize_string Option.none (.string "x")).2.2 rfl rfl⟩⟩

/-- **C6.** Numeric deserialization never crosses number kinds implicitly:
a `Float` source for any integer width is an `UnsupportedConversion` error
(both at the `TryFrom<Number>` level and at the deserializer level); an
out-of-range signed or unsigned integer source is an `OutOfBounds` error;
in-range signed/unsigned cross-conversions succeed with the exact value.
(The hypotheses `IW.smin .w64 ≤ v ≤ IW.smax .w64` and `n ≤ IW.umax .w64`
say that the source payload is a representable `i64`/`u64`.) -/
theorem c6_numeric_strictness (w : IW) :
    (∀ f, tryFromNumberSigned w (.float f) = .error .UnsupportedConversion)
    ∧ (∀ f, tryFromNumberUnsigned w (.float f) = .error .UnsupportedConversion)
    ∧ (∀ f, deserialize_signed w (.number (.float f)) = .error .UnsupportedConversion)
    ∧ (∀ f, deserialize_unsigned w (.number (.float f)) = .error .UnsupportedConversion)
    ∧ (∀ v : Int, IW.smin .w64 ≤ v → v ≤ IW.smax .w64 → v < IW.smin w ∨ IW.smax w < v →
        deserialize_signed w (.number (.signedInt v)) = .error .OutOfBounds)
    ∧ (∀ n : Nat, n ≤ IW.umax .w64 → (IW.smax w : Int) < (n : Int) →
        deserialize_signed w (.number (.unsignedInt n)) = .error .OutOfBounds)
    ∧ (∀ v : Int, IW.smin .w64 ≤ v → v ≤ IW.smax .w64 → v < 0 ∨ (IW.umax w : Int) < v →
        deserialize_unsigned w (.number (.signedInt v)) = .error .OutOfBounds)
    ∧ (∀ n : Nat, n ≤ IW.umax .w64 → IW.umax w < n →
        deserialize_unsigned w (.number (.unsignedInt n)) = .error .OutOfBounds)
    ∧ (∀ v : Int, IW.smin w ≤ v → v ≤ IW.smax w →
        deserialize_signed w (.number (.signedInt v)) = .ok v)
    ∧ (∀ n : Nat, (n : Int) ≤ IW.smax w →
        deserialize_signed w (.number (.unsignedInt n)) = .ok (n : Int))
    ∧ (∀ v : Int, 0 ≤ v → v ≤ (IW.umax w : Int) →
        deserialize_unsigned w (.number (.signedInt v)) = .ok v.toNat)
    ∧ (∀ n : Nat, n ≤ IW.umax w →
        deserialize_unsigned w (.number (.unsignedInt n)) = .ok n) := by
  cases w <;>
    refine ⟨fun f => rfl, fun f => rfl, fun f => rfl, fun f => rfl,
      ?_, ?_, ?_, ?_, ?_, ?_, ?_, ?_⟩ <;>
    (intros
     simp only [deserialize_signed, deserialize_unsigned, as_number, tryFromNumberSigned,
       tryFromNumberUnsigned, IW.smin, IW.smax, IW.umax] at *
     all_goals
       first
         | rfl
         | (split_ifs <;> first | rfl | (exfalso; omega))
         | (exfalso; omega))

/-- **C6 witness.** -/
theorem c6_numeric_strictness_witness :
    deserialize_signed .w8 (.number (.float ⟨0⟩)) = .error .UnsupportedConversion
    ∧ deserialize_signed .w8 (.number (.signedInt 300)) = .error .OutOfBounds
    ∧ deserialize_signed .w8 (.number (.unsignedInt 100)) = .ok 100
    ∧ deserialize_unsigned .w8 (.number (.signedInt (-1))) = .error .OutOfBounds
    ∧ deserialize_unsigned .w8 (.number (.signedInt 100)) = .ok 100 := by
  obtain ⟨_, _, p3, _, p5, _, p7, _, _, p10, p11, _⟩ := c6_numeric_strictness .w8
  exact ⟨p3 ⟨0⟩,
    p5 300 (by decide) (by decide) (Or.inr (by decide)),
    p10 100 (by decide),
    p7 (-1) (by decide) (by decide) (Or.inl (by decide)),
    p11 100 (by decide) (by decide)⟩

/-- Getting the element right after `done` in `done ++ p :: ps` yields `p`. -/
theorem get_append_cons {α : Type} :
    ∀ (done : List α) (p : α) (ps : List α) (h : done.length < (done ++ p :: ps).length),
      (done ++ p :: ps).get ⟨done.length, h⟩ = p := by
  intro done
  induction done with
  | nil => intro p ps h; rfl
  | cons d ds ih => intro p ps h; simpa using ih p ps (by simp)

/-- Setting the element right after `done` in `done ++ p :: ps`. -/
theorem set_append_cons {α : Type} :
    ∀ (done : List α) (p a : α) (ps : List α),
      (done ++ p :: ps).set done.length a = done ++ a :: ps := by
  intro done
  induction done with
  | nil => intro p a ps; rfl
  | cons d ds ih => intro p a ps; simp [List.set, ih]

/-- Success case of the `Vec` merge loop: if every positional update of the
pending receiver elements succeeds and every extra incoming element
deserializes (to `tail`), the loop returns the updated prefix followed by
the fresh tail, with no error. -/
theorem update_vec_loop_ok {α : Type} (upd : α → Intermediate → α × Option Error)
    (des : Intermediate → Except Error α) :
    ∀ (elems : List Intermediate) (done pending tail : List α),
      pending.length ≤ elems.length →
      (∀ i (hp : i < pending.length) (he : i < elems.length),
          (upd (pending.get ⟨i, hp⟩) (elems.get ⟨i, he⟩)).2 = Option.none) →
      (elems.drop pending.length).mapM (fun e => (des e).toOption) = some tail →
      update_vec_loop upd des done.length (done ++ pending) elems
        = (done ++ (updZip upd pending elems ++ tail), Option.none) := by
  intro elems
  induction elems with
  | nil =>
    intro done pending tail hlen hupd hdes
    have hp : pending = [] := by
      cases pending with
      | nil => rfl
      | cons _ _ => simp at hlen
    subst hp
    simp only [List.drop_nil, List.mapM_nil, pure, Option.some.injEq] at hdes
    subst hdes
    simp [update_vec_loop, updZip]
  | cons e rest ih =>
    intro done pending tail hlen hupd hdes
    cases pending with
    | nil =>
      simp only [List.length_nil, List.drop_zero] at hdes
      rw [List.mapM_cons] at hdes
      cases hde : des e with
      | error err => rw [hde] at hdes; simp [Except.toOption] at hdes
      | ok a =>
        rw [hde] at hdes
        cases hrest : rest.mapM (fun e => (des e).toOption) with
        | none => rw [hrest] at hdes; simp [Except.toOption] at hdes
        | some tail' =>
          rw [hrest] at hdes
          simp [Except.toOption] at hdes
          subst hdes
          simp only [List.append_nil, update_vec_loop]
          rw [dif_neg (lt_irrefl done.length)]
          rw [hde]
          have h := ih (done ++ [a]) [] tail' (by simp)
            (fun i hp _ => absurd hp (by simp)) (by simpa using hrest)
          simp only [List.append_nil, List.length_append, List.length_cons,
            List.length_nil, Nat.zero_add] at h
          show update_vec_loop upd des (done.length + 1) (done ++ [a]) rest
            = (done ++ (updZip upd [] (e :: rest) ++ a :: tail'), Option.none)
          rw [h]
          simp [updZip]
    | cons p ps =>
      have hlt : done.length < (done ++ p :: ps).length := by simp
      have h0 : (upd p e).2 = Option.none := hupd 0 (by simp) (by simp)
      simp only [update_vec_loop]
      rw [dif_pos hlt, get_append_cons done p ps hlt, set_append_cons done p _ ps, h0]
      have hih := ih (done ++ [(upd p e).1]) ps tail
        (by simpa using Nat.le_of_succ_le_succ (by simpa using hlen))
        (fun i hp he => hupd (i + 1) (by simpa using Nat.succ_lt_succ hp)
          (by simpa using Nat.succ_lt_succ he))
        (by simpa using hdes)
      simp only [List.length_append, List.length_cons, List.length_nil,
        List.append_assoc, List.singleton_append] at hih
      rw [hih]
      simp [updZip]

/-- A successful `Option`-monad `mapM` preserves length. -/
theorem mapM_some_length {α β : Type} (f : α → Option β) :
    ∀ (l : List α) (l' : List β), l.mapM f = some l' → l'.length = l.length := by
  intro l
  induction l with
  | nil =>
    intro l' h
    rw [List.mapM_nil] at h
    simp only [pure, Option.some.injEq] at h
    simp [← h]
  | cons a as ih =>
    intro l' h
    rw [List.mapM_cons] at h
    cases hfa : f a with
    | none => rw [hfa] at h; simp at h
    | some b =>
      rw [hfa] at h
      cases hrest : as.mapM f with
      | none => rw [hrest] at h; simp at h
      | some bs =>
        rw [hrest] at h
        simp at h
        simp [← h, ih bs hrest]

/-- `zipWith` only consumes the common prefix, so pre-truncating the left
list to the right list's length changes nothing. -/
theorem zipWith_take_length {α β γ : Type} (f : α → β → γ) :
    ∀ (l1 : List α) (l2 : List β),
      List.zipWith f (l1.take l2.length) l2 = List.zipWith f l1 l2 := by
  intro l1
  induction l1 with
  | nil => intro l2; simp
  | cons a as ih =>
    intro l2
    cases l2 with
    | nil => simp
    | cons b bs => simp [ih bs]

/-- `zipWith` ignores anything appended past the left list's length. -/
theorem zipWith_append_right {α β γ : Type} (f : α → β → γ) :
    ∀ (l1 : List α) (l2 l3 : List β), l1.length ≤ l2.length →
      List.zipWith f l1 (l2 ++ l3) = List.zipWith f l1 l2 := by
  intro l1
  induction l1 with
  | nil => intro l2 l3 _; simp
  | cons a as ih =>
    intro l2 l3 h
    cases l2 with
    | nil => simp at h
    | cons b bs => simpa using ih bs l3 (by simpa using h)

/-- **C2.** `Vec` update merges by position: when every positional update of
the common prefix succeeds and every extra incoming element deserializes
(giving `tail`), the update succeeds and returns exactly the positionally
merged prefix followed by the freshly deserialized tail — in particular the
result has the incoming length (truncating when the input is shorter,
appending when it is longer). -/
theorem c2_vec_update_merges_by_position {α : Type}
    (upd : α → Intermediate → α × Option Error) (des : Intermediate → Except Error α)
    (self : List α) (arr : List Intermediate) (tail : List α)
    (h1 : ∀ i (hm : i < self.length) (hn : i < arr.length),
        (upd (self.get ⟨i, hm⟩) (arr.get ⟨i, hn⟩)).2 = Option.none)
    (h2 : (arr.drop self.length).mapM (fun e => (des e).toOption) = some tail) :
    update_vec upd des self (.array arr)
      = (updZip upd (self.take arr.length) arr ++ tail, Option.none)
    ∧ (updZip upd (self.take arr.length) arr ++ tail).length = arr.length := by
  have hlen_tail : tail.length = (arr.drop self.length).length :=
    mapM_some_length _ _ _ h2
  constructor
  · by_cases hmn : arr.length < self.length
    · have htk : (self.take arr.length).length = arr.length := by
        simp [List.length_take]; omega
      have hdrop : arr.drop self.length = [] := by
        apply List.drop_eq_nil_of_le; omega
      have htail : tail = [] := by
        rw [hdrop] at h2
        rw [List.mapM_nil] at h2
        simp only [pure, Option.some.injEq] at h2
        exact h2.symm
      subst htail
      have h := update_vec_loop_ok upd des arr [] (self.take arr.length) []
        (le_of_eq htk)
        (fun i hp he => by
          have hi : i < self.length := by rw [htk] at hp; omega
          have hg : (self.take arr.length).get ⟨i, hp⟩ = self.get ⟨i, hi⟩ := by
            simp [List.get_eq_getElem, List.getElem_take]
          rw [hg]; exact h1 i hi he)
        (by rw [htk, List.drop_length, List.mapM_nil]; rfl)
      simp only [List.nil_append, List.length_nil] at h
      simp only [update_vec, as_array, if_pos hmn]
      rw [h]
    · have hmle : self.length ≤ arr.length := by omega
      have h := update_vec_loop_ok upd des arr [] self tail hmle h1 h2
      simp only [List.nil_append, List.length_nil] at h
      simp only [update_vec, as_array, if_neg hmn]
      rw [h, List.take_of_length_le hmle]
  · simp only [List.length_append, updZip, List.length_drop] at hlen_tail ⊢
    rw [List.length_zipWith, List.length_take, hlen_tail]
    omega

/-- **C2 witness.** (Receiver `["a"]`, incoming
`[.string "x", .string "y"]`: position 0 is updated in place and position 1
is deserialized fresh and appended.) -/
theorem c2_vec_update_merges_by_position_witness :
    (∀ i (hm : i < (["a"] : List String).length)
       (hn : i < ([Intermediate.string "x", .string "y"] : List Intermediate).length),
        (update_string ((["a"] : List String).get ⟨i, hm⟩)
          (([Intermediate.string "x", .string "y"] : List Intermediate).get ⟨i, hn⟩)).2
          = Option.none)
    ∧ (([Intermediate.string "x", .string "y"] : List Intermediate).drop 1).mapM
        (fun e => (deserialize_string e).toOption) = some ["y"]
    ∧ update_vec update_string deserialize_string ["a"]
        (.array [.string "x", .string "y"])
      = (updZip update_string ((["a"] : List String).take 2)
          [.string "x", .string "y"] ++ ["y"], Option.none) := by
  have hyp1 : ∀ i (hm : i < (["a"] : List String).length)
      (hn : i < ([Intermediate.string "x", .string "y"] : List Intermediate).length),
      (update_string ((["a"] : List String).get ⟨i, hm⟩)
        (([Intermediate.string "x", .string "y"] : List Intermediate).get ⟨i, hn⟩)).2
        = Option.none := by
    intro i hm hn
    match i, hm with
    | 0, _ => rfl
  have hyp2 : (([Intermediate.string "x", .string "y"] : List Intermediate).drop 1).mapM
      (fun e => (deserialize_string e).toOption) = some ["y"] := rfl
  exact ⟨hyp1, hyp2,
    (c2_vec_update_merges_by_position update_string deserialize_string
      ["a"] [.string "x", .string "y"] ["y"] hyp1 hyp2).1⟩

/-- Running the merge loop through a fully successful pending prefix leaves
the loop at the first push position, with the prefix positionally updated. -/
theorem update_vec_loop_through {α : Type} (upd : α → Intermediate → α × Option Error)
    (des : Intermediate → Except Error α) :
    ∀ (elems : List Intermediate) (done pending : List α),
      pending.length ≤ elems.length →
      (∀ i (hp : i < pending.length) (he : i < elems.length),
          (upd (pending.get ⟨i, hp⟩) (elems.get ⟨i, he⟩)).2 = Option.none) →
      update_vec_loop upd des done.length (done ++ pending) elems
        = update_vec_loop upd des (done.length + pending.length)
            (done ++ updZip upd pending elems) (elems.drop pending.length) := by
  intro elems
  induction elems with
  | nil =>
    intro done pending tail hupd
    have hp : pending = [] := by
      cases pending with
      | nil => rfl
      | cons _ _ => simp at tail
    subst hp
    simp [updZip]
  | cons e rest ih =>
    intro done pending hlen hupd
    cases pending with
    | nil => simp [updZip]
    | cons p ps =>
      have hlt : done.length < (done ++ p :: ps).length := by simp
      have h0 : (upd p e).2 = Option.none := hupd 0 (by simp) (by simp)
      simp only [update_vec_loop]
      rw [dif_pos hlt, get_append_cons done p ps hlt, set_append_cons done p _ ps, h0]
      have hih := ih (done ++ [(upd p e).1]) ps
        (by simpa using Nat.le_of_succ_le_succ (by simpa using hlen))
        (fun i hp he => hupd (i + 1) (by simpa using Nat.succ_lt_succ hp)
          (by simpa using Nat.succ_lt_succ he))
      simp only [List.length_append, List.length_cons, List.length_nil, Nat.zero_add,
        List.append_assoc, List.singleton_append] at hih
      rw [hih]
      simp only [updZip, List.zipWith_cons_cons, List.drop_succ_cons, List.length_cons]
      congr 1
      omega
    
/-- When the pending receiver slots are exhausted, the loop pushes fresh
deserializations; the first failing deserialization aborts with the pushes
so far retained. -/
theorem update_vec_loop_fail_des {α : Type} (upd : α → Intermediate → α × Option Error)
    (des : Intermediate → Except Error α) :
    ∀ (front : List Intermediate) (bad : Intermediate) (after : List Intermediate)
      (done mid : List α) (err : Error),
      front.mapM (fun e => (des e).toOption) = some mid →
      des bad = .error err →
      update_vec_loop upd des done.length done (front ++ bad :: after)
        = (done ++ mid, some err) := by
  intro front
  induction front with
  | nil =>
    intro bad after done mid err hmid hbad
    rw [List.mapM_nil] at hmid
    simp only [pure, Option.some.injEq] at hmid
    subst hmid
    simp only [List.nil_append, update_vec_loop]
    rw [dif_neg (lt_irrefl done.length), hbad]
    simp
  | cons f fs ih =>
    intro bad after done mid err hmid hbad
    rw [List.mapM_cons] at hmid
    cases hdf : des f with
    | error e => rw [hdf] at hmid; simp [Except.toOption] at hmid
    | ok a =>
      rw [hdf] at hmid
      cases hrest : fs.mapM (fun e => (des e).toOption) with
      | none => rw [hrest] at hmid; simp [Except.toOption] at hmid
      | some mid' =>
        rw [hrest] at hmid
        simp [Except.toOption] at hmid
        subst hmid
        simp only [List.cons_append, update_vec_loop]
        rw [dif_neg (lt_irrefl done.length), hdf]
        have h := ih bad after (done ++ [a]) mid' err hrest hbad
        simp only [List.length_append, List.length_cons, List.length_nil,
          Nat.zero_add, List.append_assoc, List.singleton_append] at h
        show update_vec_loop upd des (done.length + 1) (done ++ [a]) (fs ++ bad :: after)
          = (done ++ a :: mid', some err)
        rw [h]

/-- First failing positional update inside the pending prefix: the loop
aborts with the earlier positions updated, the failing slot holding the
state the failed element update left behind, and the later slots
untouched. -/
theorem update_vec_loop_fail {α : Type} (upd : α → Intermediate → α × Option Error)
    (des : Intermediate → Except Error α) :
    ∀ (i : Nat) (elems : List Intermediate) (done pending : List α) (err : Error)
      (hp : i < pending.length) (hie : i < elems.length),
      pending.length ≤ elems.length →
      (∀ j (hjp : j < pending.length) (hje : j < elems.length), j < i →
          (upd (pending.get ⟨j, hjp⟩) (elems.get ⟨j, hje⟩)).2 = Option.none) →
      (upd (pending.get ⟨i, hp⟩) (elems.get ⟨i, hie⟩)).2 = some err →
      update_vec_loop upd des done.length (done ++ pending) elems
        = (done ++ (updZip upd (pending.take i) elems ++
            (upd (pending.get ⟨i, hp⟩) (elems.get ⟨i, hie⟩)).1 :: pending.drop (i + 1)),
           some err) := by
  intro i
  induction i with
  | zero =>
    intro elems done pending err hp hie hlen hpre hfail
    cases pending with
    | nil => exact absurd hp (by simp)
    | cons p ps =>
      cases elems with
      | nil => exact absurd hie (by simp)
      | cons e rest =>
        have hlt : done.length < (done ++ p :: ps).length := by simp
        have hf : (upd p e).2 = some err := hfail
        simp only [update_vec_loop]
        rw [dif_pos hlt, get_append_cons done p ps hlt, set_append_cons done p _ ps, hf]
        simp [updZip]
  | succ i ih =>
    intro elems done pending err hp hie hlen hpre hfail
    cases pending with
    | nil => exact absurd hp (by simp)
    | cons p ps =>
      cases elems with
      | nil => exact absurd hie (by simp)
      | cons e rest =>
        have hlt : done.length < (done ++ p :: ps).length := by simp
        have h0 : (upd p e).2 = Option.none := hpre 0 (by simp) (by simp) (Nat.succ_pos i)
        simp only [update_vec_loop]
        rw [dif_pos hlt, get_append_cons done p ps hlt, set_append_cons done p _ ps, h0]
        have hih := ih rest (done ++ [(upd p e).1]) ps err
          (Nat.lt_of_succ_lt_succ hp) (Nat.lt_of_succ_lt_succ hie)
          (Nat.le_of_succ_le_succ (by simpa using hlen))
          (fun j hjp hje hj => hpre (j + 1) (Nat.succ_lt_succ hjp)
            (Nat.succ_lt_succ hje) (Nat.succ_lt_succ hj))
          hfail
        simp only [List.length_append, List.length_cons, List.length_nil,
          Nat.zero_add, List.append_assoc, List.singleton_append] at hih
        rw [hih]
        simp [updZip, List.get]

/-- **C10.** `Vec` update is not atomic on error.  First conjunct: when the
incoming array is shorter than the receiver and the first failing positional
update is at index `i`, the returned receiver is already truncated to the
incoming length, with indices below `i` updated, slot `i` holding whatever
the failed element update left, and the remaining (truncated) slots
untouched — and its length is the incoming length.  Second conjunct: when
the incoming array extends the receiver and a fresh deserialization fails,
the receiver keeps all positional updates and all successfully appended
elements (no rollback). -/
theorem c10_vec_update_not_atomic {α : Type}
    (upd : α → Intermediate → α × Option Error) (des : Intermediate → Except Error α)
    (self : List α) :
    (∀ (arr : List Intermediate) (i : Nat) (err : Error) (ai : α) (ei : Intermediate),
      arr.length < self.length →
      (self.take arr.length).get? i = some ai →
      arr.get? i = some ei →
      (∀ j aj ej, j < i → (self.take arr.length).get? j = some aj →
          arr.get? j = some ej → (upd aj ej).2 = Option.none) →
      (upd ai ei).2 = some err →
      update_vec upd des self (.array arr)
        = (updZip upd ((self.take arr.length).take i) arr
            ++ (upd ai ei).1 :: (self.take arr.length).drop (i + 1), some err)
      ∧ (updZip upd ((self.take arr.length).take i) arr
          ++ (upd ai ei).1 :: (self.take arr.length).drop (i + 1)).length = arr.length)
    ∧ (∀ (arr1 front : List Intermediate) (bad : Intermediate)
        (after : List Intermediate) (mid : List α) (err : Error),
      self.length = arr1.length →
      (∀ j aj ej, self.get? j = some aj → arr1.get? j = some ej →
          (upd aj ej).2 = Option.none) →
      front.mapM (fun e => (des e).toOption) = some mid →
      des bad = .error err →
      update_vec upd des self (.array (arr1 ++ front ++ bad :: after))
        = (updZip upd self arr1 ++ mid, some err)) := by
  constructor
  · intro arr i err ai ei hshort hai hei hpre hfail
    have hp : i < (self.take arr.length).length := (List.get?_eq_some.mp hai).1
    have hie : i < arr.length := (List.get?_eq_some.mp hei).1
    have hgai : (self.take arr.length).get ⟨i, hp⟩ = ai := by
      have := List.get?_eq_get hp
      rw [hai] at this
      exact (Option.some.injEq _ _).mp this.symm
    have hgei : arr.get ⟨i, hie⟩ = ei := by
      have := List.get?_eq_get hie
      rw [hei] at this
      exact (Option.some.injEq _ _).mp this.symm
    have htk : (self.take arr.length).length = arr.length := by
      simp [List.length_take]; omega
    have h := update_vec_loop_fail upd des i arr [] (self.take arr.length) err hp hie
      (le_of_eq htk)
      (fun j hjp hje hj => hpre j _ _ hj (List.get?_eq_get hjp) (List.get?_eq_get hje))
      (by rw [hgai, hgei]; exact hfail)
    rw [hgai, hgei] at h
    simp only [List.nil_append, List.length_nil] at h
    constructor
    · simp only [update_vec, as_array, if_pos hshort]
      exact h
    · simp only [List.length_append, List.length_cons, List.length_drop, updZip]
      rw [List.length_zipWith, List.length_take, List.length_take]
      omega
  · intro arr1 front bad after mid err hm hupd hmid hbad
    have hlen : self.length ≤ (arr1 ++ front ++ bad :: after).length := by
      simp [List.length_append]; omega
    have hnlt : ¬ (arr1 ++ front ++ bad :: after).length < self.length := by omega
    simp only [update_vec, as_array, if_neg hnlt]
    have hthrough := update_vec_loop_through upd des (arr1 ++ front ++ bad :: after)
      [] self hlen
      (fun j hjp hje => by
        have hje1 : j < arr1.length := by omega
        have hg : (arr1 ++ front ++ bad :: after).get ⟨j, hje⟩ = arr1.get ⟨j, hje1⟩ := by
          simp [List.get_eq_getElem, List.getElem_append_left, hje1]
        rw [hg]
        exact hupd j _ _ (List.get?_eq_get hjp) (List.get?_eq_get hje1))
    simp only [List.nil_append, List.length_nil, Nat.zero_add] at hthrough
    rw [hthrough]
    have hdrop : (arr1 ++ front ++ bad :: after).drop self.length
        = front ++ bad :: after := by
      rw [hm, List.append_assoc, List.drop_left]
    have hzip : updZip upd self (arr1 ++ front ++ bad :: after)
        = updZip upd self arr1 := by
      rw [List.append_assoc]
      exact zipWith_append_right _ self arr1 _ (le_of_eq hm)
    rw [hdrop, hzip]
    have hfin := update_vec_loop_fail_des upd des front bad after
      (updZip upd self arr1) mid err hmid hbad
    have hlenz : (updZip upd self arr1).length = self.length := by
      simp only [updZip]
      rw [List.length_zipWith]
      omega
    rw [← hlenz]
    exact hfin

/-- **C10 witness.** (Receiver `["a","b","c"]`, incoming
`[.bool true, .string "x"]`: the receiver is truncated to length 2 before
the failing update of index 0, and the error is returned with the truncated
state `["a","b"]`.) -/
theorem c10_vec_update_not_atomic_witness :
    (([Intermediate.bool true, .string "x"] : List Intermediate).length
        < (["a", "b", "c"] : List String).length)
    ∧ ((["a", "b", "c"] : List String).take 2).get? 0 = some "a"
    ∧ ([Intermediate.bool true, .string "x"] : List Intermediate).get? 0
        = some (.bool true)
    ∧ (update_string "a" (.bool true)).2 = some (.InvalidValue "string")
    ∧ update_vec update_string deserialize_string ["a", "b", "c"]
        (.array [.bool true, .string "x"])
      = (["a", "b"], some (.InvalidValue "string")) := by
  have h := (c10_vec_update_not_atomic update_string deserialize_string
      ["a", "b", "c"]).1 [.bool true, .string "x"] 0 (.InvalidValue "string")
      "a" (.bool true) (by decide) rfl rfl
      (fun j aj ej hj _ _ => absurd hj (Nat.not_lt_zero j)) rfl
  exact ⟨by decide, rfl, rfl, rfl, h.1⟩

/-- `alSet` at another key does not change a lookup. -/
theorem alGet_alSet_ne {β : Type} (k key : String) (b : β) :
    ∀ l : List (String × β), k ≠ key → alGet (alSet l key b) k = alGet l k := by
  intro l hk
  induction l with
  | nil => rfl
  | cons kv rest ih =>
    obtain ⟨k', v'⟩ := kv
    by_cases hk' : k' = key
    · subst hk'
      simp [alSet, alGet, Ne.symm hk]
    · simp only [alSet, if_neg hk', alGet]
      by_cases h2 : k' = k
      · simp [h2]
      · simp [h2, ih]

/-- `alSet` at a present key makes the lookup return the new value. -/
theorem alGet_alSet_self {β : Type} (key : String) (b : β) :
    ∀ (l : List (String × β)) (v : β), alGet l key = some v →
      alGet (alSet l key b) key = some b := by
  intro l
  induction l with
  | nil => intro v h; simp [alGet] at h
  | cons kv rest ih =>
    obtain ⟨k', v'⟩ := kv
    intro v h
    by_cases hk' : k' = key
    · simp [alSet, hk', alGet]
    · simp only [alGet, if_neg hk'] at h
      simp only [alSet, if_neg hk', alGet, if_neg hk']
      exact ih v h

/-- A lookup hit in the left list survives an append. -/
theorem alGet_append_of_some {β : Type} (k : String) (v : β) :
    ∀ l1 l2 : List (String × β), alGet l1 k = some v → alGet (l1 ++ l2) k = some v := by
  intro l1 l2 h
  induction l1 with
  | nil => simp [alGet] at h
  | cons kv rest ih =>
    obtain ⟨k', v'⟩ := kv
    by_cases hk' : k' = k
    · simp_all [alGet]
    · simp only [alGet, if_neg hk'] at h
      simpa [alGet, if_neg hk'] using ih h

/-- A lookup miss in the left list defers to the right list. -/
theorem alGet_append_of_none {β : Type} (k : String) :
    ∀ l1 l2 : List (String × β), alGet l1 k = Option.none →
      alGet (l1 ++ l2) k = alGet l2 k := by
  intro l1 l2 h
  induction l1 with
  | nil => rfl
  | cons kv rest ih =>
    obtain ⟨k', v'⟩ := kv
    by_cases hk' : k' = k
    · simp_all [alGet]
    · simp only [alGet, if_neg hk'] at h
      simpa [alGet, if_neg hk'] using ih h

/-- Appending a single differently keyed entry does not change a lookup. -/
theorem alGet_append_singleton_ne {β : Type} (k name : String) (b : β)
    (l : List (String × β)) (h : k ≠ name) :
    alGet (l ++ [(name, b)]) k = alGet l k := by
  cases hl : alGet l k with
  | some v => exact alGet_append_of_some k v l [(name, b)] hl
  | none =>
    rw [alGet_append_of_none k l [(name, b)] hl]
    simp [alGet, Ne.symm h]

/-- Frame property of the map-entry merge loop: a key that does not occur in
the incoming entries keeps exactly its previous binding (whether or not the
run succeeded). -/
theorem update_map_entries_untouched {β : Type}
    (upd : β → Intermediate → β × Option Error) (des : Intermediate → Except Error β)
    (k : String) :
    ∀ (entries : List (String × Intermediate)) (self res : List (String × β))
      (e : Option Error),
      update_map_entries upd des self entries = (res, e) →
      k ∉ entries.map Prod.fst →
      alGet res k = alGet self k := by
  intro entries
  induction entries with
  | nil =>
    intro self res e h _
    simp only [update_map_entries, Prod.mk.injEq] at h
    rw [← h.1]
  | cons nv rest ih =>
    intro self res e h hk
    obtain ⟨name, value⟩ := nv
    have hkname : k ≠ name ∧ k ∉ rest.map Prod.fst := by
      simpa [not_or] using hk
    simp only [update_map_entries] at h
    split at h
    next inner hga =>
      split at h
      next h2 =>
        rw [ih _ _ _ h hkname.2, alGet_alSet_ne k name _ self hkname.1]
      next err h2 =>
        simp only [Prod.mk.injEq] at h
        rw [← h.1, alGet_alSet_ne k name _ self hkname.1]
    next hga =>
      split at h
      next b hdv =>
        rw [ih _ _ _ h hkname.2, alGet_append_singleton_ne k name b self hkname.1]
      next err hdv =>
        simp only [Prod.mk.injEq] at h
        rw [← h.1]

/-- On a successful merge, a key present in both the receiver and the
incoming entries ends up updated in place from its incoming value. -/
theorem update_map_entries_existing {β : Type}
    (upd : β → Intermediate → β × Option Error) (des : Intermediate → Except Error β)
    (k : String) (value : Intermediate) :
    ∀ (entries : List (String × Intermediate)) (self res : List (String × β)) (v : β),
      (entries.map Prod.fst).Nodup →
      update_map_entries upd des self entries = (res, Option.none) →
      alGet self k = some v → (k, value) ∈ entries →
      alGet res k = some (upd v value).1 := by
  intro entries
  induction entries with
  | nil => intro self res v _ _ _ hmem; simp at hmem
  | cons nv rest ih =>
    intro self res v hnodup h hget hmem
    obtain ⟨name, w⟩ := nv
    have hnd : name ∉ rest.map Prod.fst ∧ (rest.map Prod.fst).Nodup := by
      simpa using hnodup
    simp only [update_map_entries] at h
    rcases List.mem_cons.mp hmem with heq | hmem'
    · obtain ⟨rfl, rfl⟩ : k = name ∧ value = w := by
        simpa [Prod.ext_iff] using heq
      split at h
      next inner hga =>
        have hiv : inner = v := by
          rw [hget] at hga
          exact (Option.some.injEq _ _).mp hga.symm
        subst hiv
        split at h
        next h2 =>
          rw [update_map_entries_untouched upd des k rest _ res _ h
            (by simpa using hnd.1)]
          exact alGet_alSet_self k _ self inner hget
        next err h2 =>
          simp at h
      next hga =>
        rw [hget] at hga
        cases hga
    · have hkname : k ≠ name := by
        intro hkn
        subst hkn
        exact hnd.1 (List.mem_map.mpr ⟨(k, value), hmem', rfl⟩)
      split at h
      next inner hga =>
        split at h
        next h2 =>
          exact ih _ res v hnd.2 h
            (by rw [alGet_alSet_ne k name _ self hkname]; exact hget) hmem'
        next err h2 =>
          simp at h
      next hga =>
        split at h
        next b hdv =>
          exact ih _ res v hnd.2 h
            (by rw [alGet_append_singleton_ne k name b self hkname]; exact hget) hmem'
        next err hdv =>
          simp at h

/-- On a successful merge, a key present only in the incoming entries is
inserted with its freshly deserialized value. -/
theorem update_map_entries_inserted {β : Type}
    (upd : β → Intermediate → β × Option Error) (des : Intermediate → Except Error β)
    (k : String) (value : Intermediate) :
    ∀ (entries : List (String × Intermediate)) (self res : List (String × β)),
      (entries.map Prod.fst).Nodup →
      update_map_entries upd des self entries = (res, Option.none) →
      alGet self k = Option.none → (k, value) ∈ entries →
      ∃ b, des value = .ok b ∧ alGet res k = some b := by
  intro entries
  induction entries with
  | nil => intro self res _ _ _ hmem; simp at hmem
  | cons nv rest ih =>
    intro self res hnodup h hget hmem
    obtain ⟨name, w⟩ := nv
    have hnd : name ∉ rest.map Prod.fst ∧ (rest.map Prod.fst).Nodup := by
      simpa using hnodup
    simp only [update_map_entries] at h
    rcases List.mem_cons.mp hmem with heq | hmem'
    · obtain ⟨rfl, rfl⟩ : k = name ∧ value = w := by
        simpa [Prod.ext_iff] using heq
      split at h
      next inner hga =>
        rw [hget] at hga
        cases hga
      next hga =>
        split at h
        next b hdv =>
          refine ⟨b, hdv, ?_⟩
          rw [update_map_entries_untouched upd des k rest _ res _ h
            (by simpa using hnd.1)]
          rw [alGet_append_of_none k self [(k, b)] hget]
          simp [alGet]
        next err hdv =>
          simp at h
    · have hkname : k ≠ name := by
        intro hkn
        subst hkn
        exact hnd.1 (List.mem_map.mpr ⟨(k, value), hmem', rfl⟩)
      split at h
      next inner hga =>
        split at h
        next h2 =>
          exact ih _ res hnd.2 h
            (by rw [alGet_alSet_ne k name _ self hkname]; exact hget) hmem'
        next err h2 =>
          simp at h
      next hga =>
        split at h
        next b hdv =>
          exact ih _ res hnd.2 h
            (by rw [alGet_append_singleton_ne k name b self hkname]; exact hget) hmem'
        next err hdv =>
          simp at h

/-- **C3.** String-keyed map update never deletes entries: after a
successful merge, every key absent from the incoming map keeps its previous
unchanged binding; keys present in both are updated in place from the
incoming value; keys only in the incoming map are inserted via
deserialization. -/
theorem c3_map_update_never_deletes {β : Type}
    (upd : β → Intermediate → β × Option Error) (des : Intermediate → Except Error β)
    (self : List (String × β)) (entries : List (String × Intermediate))
    (res : List (String × β))
    (hnodup : (entries.map Prod.fst).Nodup)
    (hrun : update_hashmap upd des self (.map entries) = (res, Option.none)) :
    (∀ k, k ∉ entries.map Prod.fst → alGet res k = alGet self k)
    ∧ (∀ k v value, alGet self k = some v → (k, value) ∈ entries →
        alGet res k = some (upd v value).1)
    ∧ (∀ k value, alGet self k = Option.none → (k, value) ∈ entries →
        ∃ b, des value = .ok b ∧ alGet res k = some b) := by
  have hrun' : update_map_entries upd des self entries = (res, Option.none) := hrun
  exact ⟨fun k hk => update_map_entries_untouched upd des k entries self res _ hrun' hk,
    fun k v value hv hm =>
      update_map_entries_existing upd des k value entries self res v hnodup hrun' hv hm,
    fun k value hv hm =>
      update_map_entries_inserted upd des k value entries self res hnodup hrun' hv hm⟩

/-- **C3 witness.** (Receiver `{a ↦ "1", b ↦ "2"}`, incoming
`{b ↦ "X", c ↦ "Y"}`: `a` is untouched, `b` updated in place, `c`
inserted.) -/
theorem c3_map_update_never_deletes_witness :
    (([("b", Intermediate.string "X"), ("c", .string "Y")].map Prod.fst).Nodup
    ∧ update_hashmap update_string deserialize_string [("a", "1"), ("b", "2")]
        (.map [("b", .string "X"), ("c", .string "Y")])
      = ([("a", "1"), ("b", "X"), ("c", "Y")], Option.none))
    ∧ alGet ([("a", "1"), ("b", "X"), ("c", "Y")] : List (String × String)) "a" = some "1"
    ∧ alGet ([("a", "1"), ("b", "X"), ("c", "Y")] : List (String × String)) "b"
        = some (update_string "2" (.string "X")).1
    ∧ ∃ b, deserialize_string (.string "Y") = .ok b
        ∧ alGet ([("a", "1"), ("b", "X"), ("c", "Y")] : List (String × String)) "c"
            = some b := by
  have h := c3_map_update_never_deletes update_string deserialize_string
    [("a", "1"), ("b", "2")] [("b", .string "X"), ("c", .string "Y")]
    [("a", "1"), ("b", "X"), ("c", "Y")] (by decide) rfl
  exact ⟨⟨by decide, rfl⟩,
    (h.1 "a" (by decide)).trans rfl,
    h.2.1 "b" "2" (.string "X") rfl (List.mem_cons_self _ _),
    h.2.2 "c" (.string "Y") rfl (List.mem_cons_of_mem _ (List.mem_cons_self _ _))⟩

/-- In-range signed sources convert exactly (every width). -/
theorem tryS_signed_ok (w : IW) (i : Int) (h1 : IW.smin w ≤ i) (h2 : i ≤ IW.smax w) :
    tryFromNumberSigned w (.signedInt i) = .ok i := by
  cases w <;> simp only [tryFromNumberSigned, IW.smin, IW.smax] at h1 h2 ⊢ <;>
    first
      | rfl
      | (rw [if_pos]; omega)

/-- In-range unsigned sources convert exactly (every width). -/
theorem tryU_unsigned_ok (w : IW) (n : Nat) (h : n ≤ IW.umax w) :
    tryFromNumberUnsigned w (.unsignedInt n) = .ok n := by
  cases w <;> simp only [tryFromNumberUnsigned, IW.umax] at h ⊢ <;>
    first
      | rfl
      | (rw [if_pos]; omega)

/-- Typing is transparent through the ownership-wrapper code. -/
theorem hasTy_box (v : Val) (t : Ty) : hasTy v (.box t) = hasTy v t := by
  cases v <;> simp [hasTy]

/-- Serialization preserves sequence length. -/
theorem serList_length : ∀ vs : List Val, (serList vs).length = vs.length := by
  intro vs
  induction vs with
  | nil => simp [serList]
  | cons v vs' ih => simp [serList, ih]

/-- Membership view of list typing. -/
theorem hasTyList_mem {vs : List Val} {t : Ty} (h : hasTyList vs t = true) :
    ∀ v ∈ vs, hasTy v t = true := by
  induction vs with
  | nil => intro v hv; simp at hv
  | cons w ws ih =>
    simp only [hasTyList, Bool.and_eq_true] at h
    intro v hv
    rcases List.mem_cons.mp hv with rfl | hv'
    · exact h.1
    · exact ih h.2 v hv'

/-- Membership view of list option-goodness. -/
theorem goodOptList_mem {vs : List Val} (h : goodOptList vs = true) :
    ∀ v ∈ vs, goodOpt v = true := by
  induction vs with
  | nil => intro v hv; simp at hv
  | cons w ws ih =>
    simp only [goodOptList, Bool.and_eq_true] at h
    intro v hv
    rcases List.mem_cons.mp hv with rfl | hv'
    · exact h.1
    · exact ih h.2 v hv'

/-- Membership view of entry typing. -/
theorem hasTyEntries_mem {es : List (String × Val)} {t : Ty}
    (h : hasTyEntries es t = true) : ∀ kv ∈ es, hasTy kv.2 t = true := by
  induction es with
  | nil => intro kv hkv; simp at hkv
  | cons w ws ih =>
    obtain ⟨k, v⟩ := w
    simp only [hasTyEntries, Bool.and_eq_true] at h
    intro kv hkv
    rcases List.mem_cons.mp hkv with rfl | hkv'
    · exact h.1
    · exact ih h.2 kv hkv'

/-- Membership view of entry option-goodness. -/
theorem goodOptEntries_mem {es : List (String × Val)}
    (h : goodOptEntries es = true) : ∀ kv ∈ es, goodOpt kv.2 = true := by
  induction es with
  | nil => intro kv hkv; simp at hkv
  | cons w ws ih =>
    obtain ⟨k, v⟩ := w
    simp only [goodOptEntries, Bool.and_eq_true] at h
    intro kv hkv
    rcases List.mem_cons.mp hkv with rfl | hkv'
    · exact h.1
    · exact ih h.2 kv hkv'

/-- Element-wise round trip implies sequence round trip. -/
theorem deserList_serList_of (t : Ty) :
    ∀ vs : List Val, (∀ v ∈ vs, deser t (ser v) = .ok v) →
      deserList t (serList vs) = .ok vs := by
  intro vs
  induction vs with
  | nil => simp [serList, deserList]
  | cons v vs' ih =>
    intro h
    have h1 : deser t (ser v) = .ok v := h v (List.mem_cons_self _ _)
    have h2 := ih (fun w hw => h w (List.mem_cons_of_mem _ hw))
    simp [serList, deserList, h1, h2, Except.bind, Bind.bind, Pure.pure, Except.pure]

/-- Value-wise round trip implies map-entry round trip. -/
theorem deserEntries_serEntries_of (t : Ty) :
    ∀ es : List (String × Val), (∀ kv ∈ es, deser t (ser kv.2) = .ok kv.2) →
      deserEntries t (serEntries es) = .ok es := by
  intro es
  induction es with
  | nil => simp [serEntries, deserEntries]
  | cons kv es' ih =>
    obtain ⟨k, v⟩ := kv
    intro h
    have h1 : deser t (ser v) = .ok v := h (k, v) (List.mem_cons_self _ _)
    have h2 := ih (fun w hw => h w (List.mem_cons_of_mem _ hw))
    simp [serEntries, deserEntries, h1, h2, Except.bind, Bind.bind, Pure.pure, Except.pure]

/-- Round trip for a universe value, bounded form used for the strong
induction on term size. -/
theorem deser_ser_bounded :
    ∀ (n : Nat) (v : Val) (t : Ty), sizeOf v + sizeOf t ≤ n →
      hasTy v t = true → goodOpt v = true → deser t (ser v) = .ok v := by
  intro n
  induction n with
  | zero =>
    intro v t hn _ _
    exfalso
    have hv : 0 < sizeOf v := by cases v <;> simp
    omega
  | succ m ih =>
    intro v t hn ht hg
    cases t with
    | box t' =>
      rw [hasTy_box] at ht
      simp only [deser]
      refine ih v t' ?_ ht hg
      simp only [Ty.box.sizeOf_spec] at hn
      omega
    | bool =>
      cases v <;> first
        | (simp [hasTy] at ht; done)
        | simp [ser, deser, deserialize_bool, as_bool, Except.map]
    | sint w =>
      cases v <;> first
        | (simp [hasTy] at ht; done)
        | (rename_i i
           simp only [hasTy, decide_eq_true_eq] at ht
           simp [ser, deser, deserialize_signed, as_number, Except.map,
             tryS_signed_ok w i ht.1 ht.2])
    | uint w =>
      cases v <;> first
        | (simp [hasTy] at ht; done)
        | (rename_i nn
           simp only [hasTy, decide_eq_true_eq] at ht
           simp [ser, deser, deserialize_unsigned, as_number, Except.map,
             tryU_unsigned_ok w nn ht])
    | char =>
      cases v <;> first
        | (simp [hasTy] at ht; done)
        | simp [ser, deser, deserialize_char, as_char, as_str, Except.map]
    | str =>
      cases v <;> first
        | (simp [hasTy] at ht; done)
        | simp [ser, deser, deserialize_string, as_str, Except.map]
    | opt t' =>
      cases v with
      | vNone => simp [ser, deser, is_none]
      | vSome v' =>
        simp only [hasTy] at ht
        simp only [goodOpt, Bool.and_eq_true, Bool.not_eq_true'] at hg
        have hrec : deser t' (ser v') = .ok v' := by
          refine ih v' t' ?_ ht hg.2
          simp only [Val.vSome.sizeOf_spec, Ty.opt.sizeOf_spec] at hn
          omega
        simp [ser, deser, hg.1, hrec, Except.map]
      | vBool b => simp [hasTy] at ht
      | vInt i => simp [hasTy] at ht
      | vNat nn => simp [hasTy] at ht
      | vChar c => simp [hasTy] at ht
      | vStr s => simp [hasTy] at ht
      | vVec vs => simp [hasTy] at ht
      | vPair a b => simp [hasTy] at ht
      | vMap es => simp [hasTy] at ht
    | vec t' =>
      cases v <;> first
        | (simp [hasTy] at ht; done)
        | (rename_i vs
           simp only [hasTy] at ht
           simp only [goodOpt] at hg
           have hall : ∀ x ∈ vs, deser t' (ser x) = .ok x := by
             intro x hx
             refine ih x t' ?_ (hasTyList_mem ht x hx) (goodOptList_mem hg x hx)
             have hsz := List.sizeOf_lt_of_mem hx
             simp only [Val.vVec.sizeOf_spec, Ty.vec.sizeOf_spec] at hn
             omega
           simp [ser, deser, as_array, Except.map, deserList_serList_of t' vs hall])
    | arr n' t' =>
      cases v <;> first
        | (simp [hasTy] at ht; done)
        | (rename_i vs
           simp only [hasTy, Bool.and_eq_true, decide_eq_true_eq] at ht
           simp only [goodOpt] at hg
           have hall : ∀ x ∈ vs, deser t' (ser x) = .ok x := by
             intro x hx
             refine ih x t' ?_ (hasTyList_mem ht.2 x hx) (goodOptList_mem hg x hx)
             have hsz := List.sizeOf_lt_of_mem hx
             simp only [Val.vVec.sizeOf_spec, Ty.arr.sizeOf_spec] at hn
             omega
           cases n' with
           | zero =>
             have hvs : vs = [] := List.eq_nil_of_length_eq_zero ht.1
             subst hvs
             simp [deser]
           | succ mm =>
             have hlen : (serList vs).length = mm + 1 := by
               rw [serList_length]; exact ht.1
             simp only [ser, deser, as_array]
             rw [if_neg (by omega)]
             rw [List.take_of_length_le (le_of_eq hlen)]
             simp [Except.map, deserList_serList_of t' vs hall])
    | prod t1 t2 =>
      cases v <;> first
        | (simp [hasTy] at ht; done)
        | (rename_i a b
           simp only [hasTy, Bool.and_eq_true] at ht
           simp only [goodOpt, Bool.and_eq_true] at hg
           have h1 : deser t1 (ser a) = .ok a := by
             refine ih a t1 ?_ ht.1 hg.1
             simp only [Val.vPair.sizeOf_spec, Ty.prod.sizeOf_spec] at hn
             omega
           have h2 : deser t2 (ser b) = .ok b := by
             refine ih b t2 ?_ ht.2 hg.2
             simp only [Val.vPair.sizeOf_spec, Ty.prod.sizeOf_spec] at hn
             omega
           simp [ser, deser, as_array, h1, h2, Except.map, Except.bind, Bind.bind,
             Pure.pure, Except.pure])
    | map t' =>
      cases v <;> first
        | (simp [hasTy] at ht; done)
        | (rename_i es
           simp only [hasTy, Bool.and_eq_true] at ht
           simp only [goodOpt] at hg
           have hall : ∀ kv ∈ es, deser t' (ser kv.2) = .ok kv.2 := by
             intro kv hkv
             refine ih kv.2 t' ?_ (hasTyEntries_mem ht.2 kv hkv)
               (goodOptEntries_mem hg kv hkv)
             have hsz := List.sizeOf_lt_of_mem hkv
             have hkv2 : sizeOf kv.2 < sizeOf kv := by
               obtain ⟨k, x⟩ := kv
               simp only [Prod.mk.sizeOf_spec]
               omega
             simp only [Val.vMap.sizeOf_spec, Ty.map.sizeOf_spec] at hn
             omega
           simp [ser, deser, as_map, Except.map, deserEntries_serEntries_of t' es hall])

/-- Round trip for a single universe value: a well-typed value without
collapsing options deserializes back from its serialization. -/
theorem deser_ser (v : Val) (t : Ty) (ht : hasTy v t = true) (hg : goodOpt v = true) :
    deser t (ser v) = .ok v :=
  deser_ser_bounded (sizeOf v + sizeOf t) v t le_rfl ht hg

/-- **C1 (counterexample).** The round trip fails as stated for nested
options: `Some(None) : Option<Option<bool>>` is well typed, serializes to
the explicit-absence value, and deserializing that value yields `None`,
which is a different value.  (The claim's only escape clause is about data
Serialize legally omits, such as skipped fields; no field is skipped
here — Serialize simply collapses `Some(None)` and `None` to the same
representation.) -/
theorem c1_counterexample :
    hasTy (.vSome .vNone) (.opt (.opt .bool)) = true
    ∧ ser (.vSome .vNone) = .none
    ∧ deser (.opt (.opt .bool)) (ser (.vSome .vNone)) = .ok .vNone
    ∧ Val.vNone ≠ Val.vSome .vNone := by
  refine ⟨by simp [hasTy], by simp [ser], by simp [ser, deser, is_none], by simp⟩

/-- **C1 (amended).** Serialize/Deserialize round-trip: every well-typed
value of the universe (primitives, `Option`, `Vec`, fixed arrays, pairs,
string-keyed maps, transparent wrappers) deserializes from its
serialization back to an equal value, provided additionally that it
contains no optional value whose inner value serializes to the
explicit-absence representation (no `Some(None)`), since Serialize
collapses such values with `None`. -/
theorem c1_round_trip (v : Val) (t : Ty) (ht : hasTy v t = true)
    (hg : goodOpt v = true) : deser t (ser v) = .ok v :=
  deser_ser v t ht hg

/-- **C1 witness.** (A string-keyed map of optional signed bytes.) -/
theorem c1_round_trip_witness :
    hasTy (.vMap [("x", .vSome (.vInt 5)), ("y", .vNone)]) (.map (.opt (.sint .w8))) = true
    ∧ goodOpt (.vMap [("x", .vSome (.vInt 5)), ("y", .vNone)]) = true
    ∧ deser (.map (.opt (.sint .w8)))
        (ser (.vMap [("x", .vSome (.vInt 5)), ("y", .vNone)]))
      = .ok (.vMap [("x", .vSome (.vInt 5)), ("y", .vNone)]) := by
  have h1 : hasTy (.vMap [("x", .vSome (.vInt 5)), ("y", .vNone)])
      (.map (.opt (.sint .w8))) = true := by
    simp [hasTy, hasTyEntries, IW.smin, IW.smax]
  have h2 : goodOpt (.vMap [("x", .vSome (.vInt 5)), ("y", .vNone)]) = true := by
    simp [goodOpt, goodOptEntries, ser, is_none]
  exact ⟨h1, h2, c1_round_trip _ _ h1 h2⟩
